import Mathlib

/-!
Shallow embedding of the ScrapeEase extraction core
(`backend/app/services/scraper.py`, `backend/app/services/data_processor.py`).

Conventions of the embedding:
* A pandas cell is a `Val`: a Python string (`vstr`), a numeric cell (`vnum`,
  carrying the string pandas prints for it with `astype(str)`), or a missing
  value (`vnull`, identifying `None` and `NaN`, which every step of this
  pipeline treats alike: `dropna`/`isna`/`drop_duplicates` do not distinguish
  them, and their `astype(str)` images `"None"` and `"nan"` are both in the
  null-literal replacement list and both strip to `""` under the numeric
  regexes).
* `str.strip()` of Python is modelled by `pstrip` (drop whitespace from both
  ends), `str(x)` by `pyStr`, truthiness by `pyFalsy`; string scanning is done
  on character lists so that every definition evaluates inside the kernel.
* A raw record (a Python dict produced by extraction) is an association list
  with unique keys in insertion order; `pd.DataFrame(list_of_dicts)` builds
  the union of the keys in first-appearance order and fills missing keys
  with `vnull`.
* `pd.to_numeric(col, errors := ignore-mode)` returns the parsed column when
  every entry parses and returns its input (the stripped strings) unchanged
  when any entry fails: the failure mode is per column, not per cell.
* `Series.replace(list, None)` with an explicit `None` value replaces the
  matched literals by a null, per pandas 1.4+ semantics.
* The crawler consumes two environment capabilities: a deterministic view of
  the network `fetch : String -> Option Page` (`none` models a fetch that
  raises) and `uj`, modelling `urllib.parse.urljoin`. A `Page` carries what
  the scraper reads from the parsed document: the table a selector locates,
  the records the list-items field configuration extracts per selector (the
  BeautifulSoup element walk itself is not modelled; no claim concerns it),
  and the first truthy href among the next-link selector candidates.
-/

inductive Val : Type where
  | vstr : String → Val
  | vnum : String → Val
  | vnull : Val
  deriving DecidableEq

abbrev Rec := List (String × Val)

structure DF where
  cols : List String
  rows : List (List Val)
  deriving DecidableEq

def Val.isStr : Val → Bool
  | .vstr _ => true
  | _ => false

def Val.isNull : Val → Bool
  | .vnull => true
  | _ => false

/-- Model of Python `str(x)` on a cell: strings print themselves, a numeric
cell prints the string pandas renders for it, and a missing value prints
`"None"` (for `NaN` the print is `"nan"`; both behave identically in every
step of this pipeline, see the header note). -/
def pyStr : Val → String
  | .vstr s => s
  | .vnum s => s
  | .vnull => "None"

/-- Model of Python `str.strip()` on the character list. -/
def trimChars (l : List Char) : List Char :=
  ((l.dropWhile Char.isWhitespace).reverse.dropWhile Char.isWhitespace).reverse

/-- Model of Python `str.strip()`. -/
def pstrip (s : String) : String := String.mk (trimChars s.toList)

/-- Literals replaced by null in `DataProcessor.clean_data`:
`df[col].replace(['', 'None', 'nan'], None)`. -/
def nullLits : List String := ["", "None", "nan"]

/-- Per-cell text cleaning of `DataProcessor.clean_data`:
`astype(str).str.strip()` then the null-literal replacement. -/
def textCleanVal (v : Val) : Val :=
  let s := pstrip (pyStr v)
  if s ∈ nullLits then Val.vnull else Val.vstr s

/-- Per-cell text cleaning of `UniversalScraper.clean_and_process_data`:
`astype(str).str.strip()` then `replace('', None)` (only the empty string). -/
def textCleanValS (v : Val) : Val :=
  let s := pstrip (pyStr v)
  if s = "" then Val.vnull else Val.vstr s

/-- Column dtype test for `select_dtypes(include=['object'])` on a frame
built from records: a column is object-typed iff it holds at least one
string, or consists entirely of missing values. -/
def isObjectCol (col : List Val) : Bool :=
  col.any Val.isStr || col.all Val.isNull

/-- Characters kept by the `data_processor` numeric regex `[^\d.-]`. -/
def digitDotDash (c : Char) : Bool := c.isDigit || c = '.' || c = '-'

/-- Characters kept by the `scraper` numeric regex `[^\d.]`. -/
def digitDot (c : Char) : Bool := c.isDigit || c = '.'

/-- `str.replace(r'[^\d.-]', '', regex=True)` of `DataProcessor.clean_data`. -/
def numStrip (s : String) : String := String.mk (s.toList.filter digitDotDash)

/-- `str.replace(r'[^\d.]', '', regex=True)` of `clean_and_process_data`. -/
def numStripS (s : String) : String := String.mk (s.toList.filter digitDot)

/-- Digit-and-dot body accepted by `pd.to_numeric` after an optional sign. -/
def numBody (l : List Char) : Bool :=
  l.any Char.isDigit
    && l.all (fun c => c.isDigit || c = '.')
    && (l.filter (fun c => c = '.')).length ≤ 1

/-- Success predicate of `pd.to_numeric` on one already-stripped string:
an optional leading minus, then digits and at most one dot, with at least
one digit (the stripped alphabet admits no exponents or signs elsewhere). -/
def isNumStr (s : String) : Bool :=
  match s.toList with
  | '-' :: t => numBody t
  | t => numBody t

/-- Numeric-indicator tokens of `DataProcessor.clean_data` (substring match
on the lowercased column name). -/
def numericTokens : List String :=
  ["price", "cost", "amount", "value", "rating", "score", "number", "count"]

/-- Numeric-indicator names of `clean_and_process_data` (exact match of the
lowercased column name). -/
def scraperNumericTokens : List String :=
  ["price", "cost", "amount", "value", "rating", "score"]

/-- Model of Python `str.lower()` (character-wise). -/
def lowerStr (s : String) : String := String.mk (s.toList.map Char.toLower)

/-- Occurrence of `needle` as a contiguous run inside `hay`. -/
def listHas (needle : List Char) : List Char → Bool
  | [] => needle.isEmpty
  | c :: t => needle.isPrefixOf (c :: t) || listHas needle t

/-- Substring occurrence test (`tok in s` of Python). -/
def containsTok (s tok : String) : Bool := listHas tok.toList s.toList

def isNumericName (name : String) : Bool :=
  numericTokens.any (fun t => containsTok (lowerStr name) t)

def isNumericNameS (name : String) : Bool :=
  scraperNumericTokens.contains (lowerStr name)

def isUrlName (name : String) : Bool :=
  containsTok (lowerStr name) "url" || containsTok (lowerStr name) "link"

/-- Model of Python `s.startswith(pre)` by character-list prefixing. -/
def strStarts (pre s : String) : Bool := pre.toList.isPrefixOf s.toList

def startsHttp (s : String) : Bool := strStarts "http://" s || strStarts "https://" s

/-- Zero test for the string form of a numeric cell (Python truthiness of
`0`/`0.0`: a parsed decimal is falsy iff it has no nonzero digit). -/
def numIsZero (s : String) : Bool := !(s.toList.any (fun c => c.isDigit && c ≠ '0'))

/-- Python truthiness of a cell (`not url` in `_clean_url`). -/
def pyFalsy : Val → Bool
  | .vnull => true
  | .vstr s => s = ""
  | .vnum s => numIsZero s

/-- `DataProcessor._clean_url`: null/falsy becomes null; otherwise the
stripped string form must start with `http://` or `https://`, else null. -/
def cleanUrlVal : Val → Val
  | .vnull => Val.vnull
  | .vstr s =>
    if s = "" then Val.vnull
    else
      let t := pstrip s
      if startsHttp t then Val.vstr t else Val.vnull
  | .vnum s =>
    if numIsZero s then Val.vnull
    else
      let t := pstrip s
      if startsHttp t then Val.vstr t else Val.vnull

/-- Duplicate removal keeping the first occurrence (`drop_duplicates`),
worker with an accumulator of already-seen elements. -/
def dedupAux {α : Type} [DecidableEq α] (seen : List α) : List α → List α
  | [] => []
  | a :: as => if a ∈ seen then dedupAux seen as else a :: dedupAux (a :: seen) as

def dedupKeepFirst {α : Type} [DecidableEq α] (l : List α) : List α := dedupAux [] l

def recKeys (r : Rec) : List String := r.map Prod.fst

/-- Column set of `pd.DataFrame(list_of_dicts)`: union of the record keys in
first-appearance order. -/
def unifyCols (raw : List Rec) : List String :=
  dedupKeepFirst ((raw.map recKeys).flatten)

/-- Reading a key from a record (missing keys yield the missing value). -/
def lookupVal (r : Rec) (k : String) : Val :=
  match r.find? (fun p => p.1 = k) with
  | some p => p.2
  | none => Val.vnull

def alignRow (cols : List String) (r : Rec) : List Val := cols.map (lookupVal r)

def allNullRow (r : List Val) : Bool := r.all Val.isNull

/-- Rows surviving `df.dropna(how='all')` on the raw frame. -/
def keptRows (raw : List Rec) : List (List Val) :=
  (raw.map (alignRow (unifyCols raw))).filter (fun r => !(allNullRow r))

/-- Column `j` of a row-major cell matrix. -/
def colOf (rows : List (List Val)) (j : Nat) : List Val :=
  rows.map (fun r => r.getD j Val.vnull)

/-- Per-column flags for a cleaning pass: flag `j` is computed from column
`j`'s name and current contents. -/
def stepFlags {σ : Type} (flagF : String → List Val → σ) (cols : List String)
    (rows : List (List Val)) : List σ :=
  (List.range cols.length).map (fun j => flagF (cols.getD j "") (colOf rows j))

/-- One per-column cleaning pass over the frame: every cell of column `j` is
rewritten by `cellF` applied to column `j`'s flag. -/
def perColStep {σ : Type} (flagF : String → List Val → σ) (cellF : σ → Val → Val)
    (cols : List String) (rows : List (List Val)) : List (List Val) :=
  rows.map (fun r => List.zipWith cellF (stepFlags flagF cols rows) r)

def objFlag (_ : String) (col : List Val) : Bool := isObjectCol col

def textCell (b : Bool) (v : Val) : Val := if b then textCleanVal v else v

def textCellS (b : Bool) (v : Val) : Val := if b then textCleanValS v else v

/-- Text-cleaning pass of `DataProcessor.clean_data` (object columns only). -/
def textCleanStep : List String → List (List Val) → List (List Val) :=
  perColStep objFlag textCell

/-- Text-cleaning pass of `clean_and_process_data` (object columns only). -/
def textCleanStepS : List String → List (List Val) → List (List Val) :=
  perColStep objFlag textCellS

/-- Whole-column parse test of `pd.to_numeric` after stripping. -/
def colParses (col : List Val) : Bool :=
  (col.map (fun v => numStrip (pyStr v))).all isNumStr

def colParsesS (col : List Val) : Bool :=
  (col.map (fun v => numStripS (pyStr v))).all isNumStr

def numFlag (name : String) (col : List Val) : Option Bool :=
  if isNumericName name then some (colParses col) else none

def numFlagS (name : String) (col : List Val) : Option Bool :=
  if isNumericNameS name then some (colParsesS col) else none

/-- Cell action of the numeric pass: on an indicator column every cell is
stripped and the column is parsed as a whole (`errors='ignore'`): all cells
become numbers when the whole column parses, otherwise all cells stay as
the stripped strings. -/
def numCell : Option Bool → Val → Val
  | none, v => v
  | some b, v =>
    let s := numStrip (pyStr v)
    if b then Val.vnum s else Val.vstr s

def numCellS : Option Bool → Val → Val
  | none, v => v
  | some b, v =>
    let s := numStripS (pyStr v)
    if b then Val.vnum s else Val.vstr s

/-- Numeric-coercion pass of `DataProcessor.clean_data`. -/
def numericStep : List String → List (List Val) → List (List Val) :=
  perColStep numFlag numCell

/-- Numeric-coercion pass of `clean_and_process_data`. -/
def numericStepS : List String → List (List Val) → List (List Val) :=
  perColStep numFlagS numCellS

def urlFlag (name : String) (_ : List Val) : Bool := isUrlName name

def urlCell (b : Bool) (v : Val) : Val := if b then cleanUrlVal v else v

/-- URL-cleaning pass of `DataProcessor.clean_data`. -/
def urlStep : List String → List (List Val) → List (List Val) :=
  perColStep urlFlag urlCell

/-- `DataProcessor.clean_data`: empty guard, build frame, drop all-null rows,
text-clean object columns, coerce numeric-indicator columns, clean url/link
columns, drop duplicate rows. -/
def clean_data (raw : List Rec) : DF :=
  if raw.isEmpty then ⟨[], []⟩
  else
    let cols := unifyCols raw
    DF.mk cols
      (dedupKeepFirst (urlStep cols (numericStep cols (textCleanStep cols (keptRows raw)))))

/-- `UniversalScraper.clean_and_process_data`: empty guard, build frame, drop
all-null rows, text-clean object columns (empty string only), coerce the
exact-name numeric columns; no url cleaning and no duplicate removal. -/
def clean_and_process_data (raw : List Rec) : DF :=
  if raw.isEmpty then ⟨[], []⟩
  else
    let cols := unifyCols raw
    DF.mk cols (numericStepS cols (textCleanStepS cols (keptRows raw)))

/-- `df.to_dict('records')`: one record per row over the unified columns. -/
def dfToRecords (d : DF) : List Rec := d.rows.map (fun r => d.cols.zip r)

/-- Cell access on a row-major matrix, total with null default. -/
def getC (rows : List (List Val)) (i j : Nat) : Val :=
  ((rows.getD i []).getD j Val.vnull)

/-- Table row: trimmed-source cell texts are taken from `cells`; `href` is
the raw href of the first anchor in the row, if any. -/
structure TRow where
  cells : List String
  href : Option String
  deriving DecidableEq

structure HTable where
  rows : List TRow
  deriving DecidableEq

structure Page where
  status : Nat
  selTable : String → Option HTable
  selItems : String → List Rec
  nextHref : Option String

structure Strategy where
  type : String
  selector : String
  deriving DecidableEq

/-- Header label for data-cell position `i`: the trimmed header text when
one exists, else the synthesized `Column_{i+1}`. -/
def headerAt (headers : List String) (i : Nat) : String :=
  headers.getD i ("Column_" ++ toString (i + 1))

/-- Python dict write `row_data[k] = v`: overwrite in place when the key
exists, else append. -/
def dictUpd (r : Rec) (k : String) (v : Val) : Rec :=
  if r.any (fun p => p.1 = k) then r.map (fun p => if p.1 = k then (k, v) else p)
  else r ++ [(k, v)]

/-- Worker of `rowCells` carrying the running cell index of
`enumerate(cells)`. -/
def rowCellsGo (headers : List String) : Nat → List String → Rec → Rec
  | _, [], acc => acc
  | i, c :: cs, acc =>
    rowCellsGo headers (i + 1) cs (dictUpd acc (headerAt headers i) (Val.vstr (pstrip c)))

/-- Data cells of one row, keyed by `headerAt`, values trimmed. -/
def rowCells (headers : List String) (cells : List String) : Rec :=
  rowCellsGo headers 0 cells []

/-- One record of `scrape_table_data`: the keyed cells, plus `_source_url`
resolved against the page URL when the row holds an anchor with a truthy
href. -/
def tableRowRec (uj : String → String → String) (url : String) (headers : List String)
    (row : TRow) : Rec :=
  let base := rowCells headers row.cells
  match row.href with
  | some h => if h = "" then base else dictUpd base "_source_url" (Val.vstr (uj url h))
  | none => base

/-- Record list of `scrape_table_data` on a located table: first row gives
the trimmed header labels, each later row becomes one record. -/
def tableRecords (uj : String → String → String) (url : String) (t : HTable) : List Rec :=
  match t.rows with
  | [] => []
  | hr :: rest => rest.map (tableRowRec uj url (hr.cells.map pstrip))

/-- `scrape_table_data`: fetch, locate the table by selector (raising, i.e.
`none`, when absent), extract. -/
def scrape_table_data (uj : String → String → String) (fetch : String → Option Page)
    (url sel : String) : Option (List Rec) :=
  match fetch url with
  | none => none
  | some p =>
    match p.selTable sel with
    | none => none
    | some t => some (tableRecords uj url t)

/-- `scrape_list_items`: fetch, select the items (raising when none match),
return their extracted records. -/
def scrape_list_items (fetch : String → Option Page) (url sel : String) :
    Option (List Rec) :=
  match fetch url with
  | none => none
  | some p =>
    let its := p.selItems sel
    if its.isEmpty then none else some its

/-- Extraction of one page under a strategy, as dispatched inside the
pagination loop (the non-table, non-list case is unreachable there). -/
def extractPage (uj : String → String → String) (fetch : String → Option Page)
    (strat : Strategy) (url : String) : Option (List Rec) :=
  if strat.type = "table" then scrape_table_data uj fetch url strat.selector
  else if strat.type = "list_items" then scrape_list_items fetch url strat.selector
  else none

/-- Next-page URL discovery: re-fetch the current page, take the first
truthy href among the next-link selectors, resolve it; a missing link, an
empty href, or an empty resolved URL all end the loop. -/
def nextUrlOf (uj : String → String → String) (fetch : String → Option Page)
    (cur : String) : Option String :=
  match fetch cur with
  | none => none
  | some p =>
    match p.nextHref with
    | none => none
    | some h =>
      if h = "" then none
      else
        let u := uj cur h
        if u = "" then none else some u

/-- Pagination loop body of `scrape_with_pagination`, on the remaining page
budget. Returns the visited URLs (one per loop iteration that reached the
scrape of a page) and the accumulated records. A failed extraction breaks
the loop keeping prior records; an unsupported strategy type breaks before
touching any page. -/
def crawlGo (uj : String → String → String) (fetch : String → Option Page)
    (strat : Strategy) : Nat → String → List String × List Rec
  | 0, _ => ([], [])
  | Nat.succ fuel, url =>
    if strat.type = "table" ∨ strat.type = "list_items" then
      match extractPage uj fetch strat url with
      | none => ([url], [])
      | some recs =>
        match nextUrlOf uj fetch url with
        | none => ([url], recs)
        | some nu =>
          let rest := crawlGo uj fetch strat fuel nu
          (url :: rest.1, recs ++ rest.2)
    else ([], [])

/-- `scrape_with_pagination(base_url, strategy)` with page budget
`maxPages` (`self.max_pages`). -/
def scrape_with_pagination (uj : String → String → String) (fetch : String → Option Page)
    (strat : Strategy) (maxPages : Nat) (baseUrl : String) : List String × List Rec :=
  crawlGo uj fetch strat maxPages baseUrl

/-- Environment of one `full_scrape` call. `detect` abstracts
`detect_data_structure` (fetch plus document heuristics; `none` models a
failed detection, `some l` the produced strategy list — no claim concerns
the heuristics themselves). `persistOk` models whether the file-save side
effects succeed; a raised save error lands in the orchestrator's
catch-all. -/
structure ScrapeEnv where
  fetch : String → Option Page
  uj : String → String → String
  detect : String → Option (List Strategy)
  maxPages : Nat
  persistOk : Bool

/-- Result dictionary of `full_scrape`. -/
structure ScrapeResult where
  success : Bool
  error : Option String
  scrape_id : String
  total_records : Option Nat
  columns : Option (List String)
  preview : Option (List Rec)
  deriving DecidableEq

def failRes (id msg : String) : ScrapeResult :=
  { success := false, error := some msg, scrape_id := id
    total_records := none, columns := none, preview := none }

/-- `UniversalScraper.full_scrape`: validate, detect a strategy when none
is given, crawl, clean, persist; every branch tags its result with the
scrape identifier generated at entry (modelled as the parameter `id`,
which the caller draws as a fresh UUID string — always 36 characters,
hence nonempty). -/
def full_scrape (env : ScrapeEnv) (id : String) (url : String)
    (strat? : Option Strategy) : ScrapeResult :=
  match env.fetch url with
  | none => failRes id "validation failed"
  | some p =>
    if p.status ≠ 200 then failRes id ("HTTP " ++ toString p.status)
    else
      let chosen : Option Strategy :=
        match strat? with
        | some s => some s
        | none =>
          match env.detect url with
          | none => none
          | some [] => none
          | some (s :: _) => some s
      match chosen with
      | none => failRes id "No suitable data structure detected"
      | some strat =>
        let raw := (scrape_with_pagination env.uj env.fetch strat env.maxPages url).2
        if raw.isEmpty then failRes id "No data extracted"
        else
          let df := clean_and_process_data raw
          if env.persistOk then
            { success := true, error := none, scrape_id := id
              total_records := some df.rows.length, columns := some df.cols
              preview := some ((dfToRecords df).take 5) }
          else failRes id "save failed"

/-- Fixture for the self-referential pagination scenario: every URL serves
the same page, whose next link points back at the start URL. -/
def selfTable : HTable := ⟨[⟨["H"], none⟩, ⟨["x"], none⟩]⟩

def selfPage : Page :=
  { status := 200, selTable := fun _ => some selfTable, selItems := fun _ => []
    nextHref := some "https://s.e/p1" }

def selfFetch : String → Option Page := fun _ => some selfPage

def idJoin : String → String → String := fun _ h => h

def tableStrat : Strategy := ⟨"table", "table"⟩

/-- Success of the first `k` crawl steps from `u`: each page extracts and
yields a next URL. -/
def chainOk (uj : String → String → String) (fetch : String → Option Page)
    (strat : Strategy) : Nat → String → Bool
  | 0, _ => true
  | Nat.succ k, u =>
    (extractPage uj fetch strat u).isSome &&
      match nextUrlOf uj fetch u with
      | none => false
      | some nu => chainOk uj fetch strat k nu

/-- Records of the first `k` crawl steps from `u`. -/
def chainRecs (uj : String → String → String) (fetch : String → Option Page)
    (strat : Strategy) : Nat → String → List Rec
  | 0, _ => []
  | Nat.succ k, u =>
    ((extractPage uj fetch strat u).getD []) ++
      match nextUrlOf uj fetch u with
      | none => []
      | some nu => chainRecs uj fetch strat k nu

/-- URL reached after `k` crawl steps from `u`. -/
def chainEnd (uj : String → String → String) (fetch : String → Option Page) :
    Nat → String → String
  | 0, u => u
  | Nat.succ k, u =>
    match nextUrlOf uj fetch u with
    | none => u
    | some nu => chainEnd uj fetch k nu

/-- Fixture for the C7 witness: page 1 holds a one-row table and links to
page 2; fetching page 2 raises. -/
def c7Page : Page :=
  { status := 200, selTable := fun _ => some ⟨[⟨["N"], none⟩, ⟨["a"], none⟩]⟩
    selItems := fun _ => [], nextHref := some "https://c7.e/p2" }

def c7Fetch : String → Option Page :=
  fun u => if u = "https://c7.e/p1" then some c7Page else none

/-- Fixture for C6: a table whose single data row contains an anchor. -/
def c6Table : HTable := ⟨[⟨["Name"], none⟩, ⟨["A"], some "/item/1"⟩]⟩

def c6Page : Page :=
  { status := 200, selTable := fun _ => some c6Table, selItems := fun _ => []
    nextHref := none }

def c6Fetch : String → Option Page := fun _ => some c6Page

/-- Strings over the post-strip alphabet (digits, dot, dash). -/
def StrippedStr (s : String) : Prop := ∀ c ∈ s.toList, digitDotDash c = true

/-- Shape of a cell produced by the text-cleaning pass: null, or a trimmed
string that is not a null literal. -/
def CleanCell (v : Val) : Prop :=
  v = Val.vnull ∨ ∃ s, v = Val.vstr s ∧ pstrip s = s ∧ s ∉ nullLits

/-- Shape of a cell produced by the url-cleaning pass: null, or a trimmed
string starting with an http scheme. -/
def UrlCell (v : Val) : Prop :=
  v = Val.vnull ∨ ∃ s, v = Val.vstr s ∧ pstrip s = s ∧ startsHttp s = true

/-- Column-level view of the text-cleaning pass. -/
def colText (c : List Val) : List Val := c.map (textCell (isObjectCol c))

/-- Column-level view of the numeric pass. -/
def colNum (name : String) (c : List Val) : List Val := c.map (numCell (numFlag name c))

/-- Column-level view of the url pass. -/
def colUrl (name : String) (c : List Val) : List Val := c.map (urlCell (urlFlag name c))

/-- Rows after the three per-column passes of `clean_data`. -/
def pipeRows (cols : List String) (rows : List (List Val)) : List (List Val) :=
  urlStep cols (numericStep cols (textCleanStep cols rows))

/-- C1 (counterexample): with every page linking to itself, the discovered
next link resolves to the current page's URL, yet the crawl does not
terminate after that first page: with a budget of 3 it scrapes the same
URL three times. This refutes the clause "when the discovered next link
resolves to the same URL as the current page the crawl terminates
immediately, visiting no further page". -/
theorem c1_counterexample :
    nextUrlOf idJoin selfFetch "https://s.e/p1" = some "https://s.e/p1" ∧
    (scrape_with_pagination idJoin selfFetch tableStrat 3 "https://s.e/p1").1 =
      ["https://s.e/p1", "https://s.e/p1", "https://s.e/p1"] ∧
    ¬ (scrape_with_pagination idJoin selfFetch tableStrat 3 "https://s.e/p1").1 =
      ["https://s.e/p1"] := by
  refine ⟨by decide, by decide, by decide⟩

/-- C1 (amended): the pagination loop performs at most `maxPages`
iterations, for every fetch environment, join function, strategy and start
URL — in particular even when every fetched page yields a next link. The
self-referential-link clause of the claim is dropped: such a link is
followed again like any other (see the counterexample). -/
theorem c1_pagination_budget (uj : String → String → String)
    (fetch : String → Option Page) (strat : Strategy) (maxPages : Nat) (u : String) :
    (scrape_with_pagination uj fetch strat maxPages u).1.length ≤ maxPages := by
  induction maxPages generalizing u with
  | zero => simp [scrape_with_pagination, crawlGo]
  | succ n ih =>
    show (crawlGo uj fetch strat (n + 1) u).1.length ≤ n + 1
    rw [crawlGo]
    by_cases h : strat.type = "table" ∨ strat.type = "list_items"
    · rw [if_pos h]
      cases hE : extractPage uj fetch strat u with
      | none => simp
      | some recs =>
        cases hN : nextUrlOf uj fetch u with
        | none => simp
        | some nu =>
          simpa using ih nu
    · rw [if_neg h]
      simp

/-- C8: a strategy whose type is neither `table` nor `list_items` makes the
crawler terminate at once: no page is visited and the record list is
empty. -/
theorem c8_unsupported_strategy (uj : String → String → String)
    (fetch : String → Option Page) (strat : Strategy) (n : Nat) (u : String)
    (h1 : strat.type ≠ "table") (h2 : strat.type ≠ "list_items") :
    scrape_with_pagination uj fetch strat n u = ([], []) := by
  cases n with
  | zero => rfl
  | succ m =>
    show crawlGo uj fetch strat (m + 1) u = ([], [])
    rw [crawlGo, if_neg]
    rintro (h | h)
    · exact h1 h
    · exact h2 h

/-- C8 (witness): a `repeated_sections` strategy at a concrete environment
returns no visited page and no records. -/
theorem c8_witness :
    (Strategy.mk "repeated_sections" ".product").type ≠ "table" ∧
    (Strategy.mk "repeated_sections" ".product").type ≠ "list_items" ∧
    scrape_with_pagination idJoin selfFetch (Strategy.mk "repeated_sections" ".product")
      5 "https://s.e/p1" = ([], []) :=
  ⟨by decide, by decide,
    c8_unsupported_strategy idJoin selfFetch (Strategy.mk "repeated_sections" ".product")
      5 "https://s.e/p1" (by decide) (by decide)⟩

/-- C10: an empty raw record list short-circuits both cleaning routines to
the empty frame (no columns, no rows) without touching any cleaning step. -/
theorem c10_empty_input :
    clean_data [] = DF.mk [] [] ∧ clean_and_process_data [] = DF.mk [] [] :=
  ⟨rfl, rfl⟩

/-- C9: `full_scrape` is a total function into tagged results (it never
raises), and every result — success, invalid URL, failed detection, empty
extraction, or persistence exception — carries the scrape identifier
generated for the call, which is nonempty whenever the generated UUID
string is. -/
theorem c9_scrape_id (env : ScrapeEnv) (id : String) (url : String)
    (strat? : Option Strategy) (h : id ≠ "") :
    (full_scrape env id url strat?).scrape_id = id ∧
    (full_scrape env id url strat?).scrape_id ≠ "" := by
  have hid : (full_scrape env id url strat?).scrape_id = id := by
    unfold full_scrape failRes
    repeat' split
    all_goals dsimp only
    all_goals repeat' split
    all_goals rfl
  exact ⟨hid, by rw [hid]; exact h⟩

/-- C9 (witness): the spec's unreachable-URL scenario — the fetch raises,
the result is a tagged failure whose scrape identifier is the generated
one and nonempty. -/
theorem c9_witness :
    ("9f3c6a2e-0b1d-4e5f-8a7b-123456789abc" : String) ≠ "" ∧
    (full_scrape (ScrapeEnv.mk (fun _ => none) idJoin (fun _ => none) 50 true)
        "9f3c6a2e-0b1d-4e5f-8a7b-123456789abc" "https://unreachable.example" none).scrape_id =
      "9f3c6a2e-0b1d-4e5f-8a7b-123456789abc" ∧
    (full_scrape (ScrapeEnv.mk (fun _ => none) idJoin (fun _ => none) 50 true)
        "9f3c6a2e-0b1d-4e5f-8a7b-123456789abc" "https://unreachable.example" none).scrape_id ≠ "" :=
  ⟨by decide,
    (c9_scrape_id (ScrapeEnv.mk (fun _ => none) idJoin (fun _ => none) 50 true)
      "9f3c6a2e-0b1d-4e5f-8a7b-123456789abc" "https://unreachable.example" none (by decide)).1,
    (c9_scrape_id (ScrapeEnv.mk (fun _ => none) idJoin (fun _ => none) 50 true)
      "9f3c6a2e-0b1d-4e5f-8a7b-123456789abc" "https://unreachable.example" none (by decide)).2⟩

theorem extractPage_none_of_invalid (uj : String → String → String)
    (fetch : String → Option Page) (strat : Strategy) (url : String)
    (h1 : strat.type ≠ "table") (h2 : strat.type ≠ "list_items") :
    extractPage uj fetch strat url = none := by
  unfold extractPage
  rw [if_neg h1, if_neg h2]

/-- C7: when the first `k` pages of a crawl succeed and page `k + 1` fails
to fetch or extract, the crawl returns exactly the records accumulated
from those first `k` pages — the failure is absorbed (the crawl still
returns a plain record list) and nothing already accumulated is lost. -/
theorem c7_soft_failure (uj : String → String → String) (fetch : String → Option Page)
    (strat : Strategy) (k fuel : Nat) (u : String) (hk : k < fuel)
    (hok : chainOk uj fetch strat k u = true)
    (hfail : extractPage uj fetch strat (chainEnd uj fetch k u) = none) :
    (scrape_with_pagination uj fetch strat fuel u).2 = chainRecs uj fetch strat k u := by
  induction k generalizing u fuel with
  | zero =>
    obtain ⟨m, rfl⟩ : ∃ m, fuel = m + 1 := ⟨fuel - 1, (Nat.succ_pred_eq_of_pos hk).symm⟩
    show (crawlGo uj fetch strat (m + 1) u).2 = chainRecs uj fetch strat 0 u
    rw [crawlGo]
    by_cases hv : strat.type = "table" ∨ strat.type = "list_items"
    · rw [if_pos hv]
      rw [show chainEnd uj fetch 0 u = u from rfl] at hfail
      rw [hfail]
      rfl
    · rw [if_neg hv]
      rfl
  | succ k ih =>
    obtain ⟨m, rfl⟩ : ∃ m, fuel = m + 1 :=
      ⟨fuel - 1, (Nat.succ_pred_eq_of_pos (Nat.lt_of_le_of_lt (Nat.zero_le _) hk)).symm⟩
    rw [chainOk] at hok
    obtain ⟨hsome, hnext⟩ := Bool.and_eq_true_iff.mp hok
    cases hN : nextUrlOf uj fetch u with
    | none => rw [hN] at hnext; exact absurd hnext (by simp)
    | some nu =>
      rw [hN] at hnext
      obtain ⟨recs, hE⟩ := Option.isSome_iff_exists.mp hsome
      have hv : strat.type = "table" ∨ strat.type = "list_items" := by
        by_contra hnv
        rw [not_or] at hnv
        rw [extractPage_none_of_invalid uj fetch strat u hnv.1 hnv.2] at hE
        exact Option.noConfusion hE
      have hend : chainEnd uj fetch (k + 1) u = chainEnd uj fetch k nu := by
        rw [chainEnd, hN]
      rw [hend] at hfail
      show (crawlGo uj fetch strat (m + 1) u).2 = chainRecs uj fetch strat (k + 1) u
      rw [crawlGo, if_pos hv, hE, hN]
      have := ih m nu (Nat.lt_of_succ_lt_succ hk) hnext hfail
      rw [chainRecs, hE, hN]
      simpa using this

/-- C7 (witness): a concrete two-page crawl whose second fetch fails keeps
exactly page 1's records. -/
theorem c7_witness :
    1 < 5 ∧
    chainOk idJoin c7Fetch tableStrat 1 "https://c7.e/p1" = true ∧
    extractPage idJoin c7Fetch tableStrat (chainEnd idJoin c7Fetch 1 "https://c7.e/p1") = none ∧
    (scrape_with_pagination idJoin c7Fetch tableStrat 5 "https://c7.e/p1").2 =
      chainRecs idJoin c7Fetch tableStrat 1 "https://c7.e/p1" :=
  ⟨by decide, by decide, by decide,
    c7_soft_failure idJoin c7Fetch tableStrat 1 5 "https://c7.e/p1"
      (by decide) (by decide) (by decide)⟩

theorem recKeys_append (r1 r2 : Rec) : recKeys (r1 ++ r2) = recKeys r1 ++ recKeys r2 :=
  List.map_append _ _ _

theorem mem_recKeys_dictUpd {a : String} {r : Rec} {k : String} {v : Val}
    (h : a ∈ recKeys (dictUpd r k v)) : a ∈ recKeys r ∨ a = k := by
  unfold dictUpd at h
  split at h
  · unfold recKeys at h
    obtain ⟨p, hp, hpa⟩ := List.mem_map.mp h
    obtain ⟨q, hq, hqp⟩ := List.mem_map.mp hp
    by_cases hqk : q.1 = k
    · right
      rw [if_pos hqk] at hqp
      rw [← hqp] at hpa
      exact hpa.symm
    · left
      rw [if_neg hqk] at hqp
      rw [← hqp] at hpa
      exact List.mem_map.mpr ⟨q, hq, hpa⟩
  · rw [recKeys_append] at h
    rcases List.mem_append.mp h with h | h
    · exact Or.inl h
    · right
      simpa [recKeys] using h

theorem mem_recKeys_rowCellsGo {headers : List String} {a : String} :
    ∀ (i0 : Nat) (cells : List String) (acc : Rec),
      a ∈ recKeys (rowCellsGo headers i0 cells acc) →
      a ∈ recKeys acc ∨ ∃ i, a = headerAt headers i := by
  intro i0 cells
  induction cells generalizing i0 with
  | nil => intro acc h; exact Or.inl h
  | cons c cs ih =>
    intro acc h
    rw [rowCellsGo] at h
    rcases ih (i0 + 1) _ h with h' | h'
    · rcases mem_recKeys_dictUpd h' with h'' | h''
      · exact Or.inl h''
      · exact Or.inr ⟨i0, h''⟩
    · exact Or.inr h'

theorem headerAt_mem_or (headers : List String) (i : Nat) :
    headerAt headers i ∈ headers ∨ headerAt headers i = "Column_" ++ toString (i + 1) := by
  unfold headerAt
  rw [List.getD_eq_getElem?_getD]
  cases h : headers[i]? with
  | none => exact Or.inr rfl
  | some s => exact Or.inl (List.mem_iff_getElem?.mpr ⟨i, h⟩)

/-- Keys of one extracted table record: a trimmed header label, a
synthesized column label, or the reserved `_source_url`. -/
theorem tableRowRec_keys (uj : String → String → String) (url : String)
    (headers : List String) (row : TRow) {a : String}
    (h : a ∈ recKeys (tableRowRec uj url headers row)) :
    a ∈ headers ∨ (∃ n, a = "Column_" ++ toString (n + 1)) ∨ a = "_source_url" := by
  have base :
      ∀ b, b ∈ recKeys (rowCells headers row.cells) →
        b ∈ headers ∨ (∃ n, b = "Column_" ++ toString (n + 1)) ∨ b = "_source_url" := by
    intro b hb
    rcases mem_recKeys_rowCellsGo 0 row.cells [] hb with h' | ⟨i, hi⟩
    · simp [recKeys] at h'
    · rcases headerAt_mem_or headers i with hm | hm
      · exact Or.inl (hi ▸ hm)
      · exact Or.inr (Or.inl ⟨i, hi.trans hm⟩)
  unfold tableRowRec at h
  cases hrow : row.href with
  | none => rw [hrow] at h; exact base a h
  | some href =>
    rw [hrow] at h
    dsimp only at h
    by_cases he : href = ""
    · rw [if_pos he] at h
      exact base a h
    · rw [if_neg he] at h
      rcases mem_recKeys_dictUpd h with h' | h'
      · exact base a h'
      · exact Or.inr (Or.inr h')

/-- C6 (amended): on a document whose strategy selector locates a table
with header row `hr` and `N` data rows, Table-mode extraction succeeds and
returns exactly `N` records, the `i`-th built from the `i`-th data row (so
document row order is preserved), and every key of every record is a
trimmed header label of `hr`, a synthesized `Column_N` label, or the
reserved `_source_url` (added when the row holds an anchor with a truthy
href — the addition of `_source_url` is the amendment over the claim as
stated). -/
theorem c6_table_extraction (uj : String → String → String)
    (fetch : String → Option Page) (url sel : String) (p : Page) (t : HTable)
    (hr : TRow) (rest : List TRow)
    (hf : fetch url = some p) (ht : p.selTable sel = some t)
    (hrows : t.rows = hr :: rest) :
    scrape_table_data uj fetch url sel = some (tableRecords uj url t) ∧
    (tableRecords uj url t).length = rest.length ∧
    (∀ i : Nat, (tableRecords uj url t)[i]? =
      (rest[i]?).map (tableRowRec uj url (hr.cells.map pstrip))) ∧
    (∀ r ∈ tableRecords uj url t, ∀ a ∈ recKeys r,
      a ∈ hr.cells.map pstrip ∨ (∃ n, a = "Column_" ++ toString (n + 1)) ∨
        a = "_source_url") := by
  have htr : tableRecords uj url t = rest.map (tableRowRec uj url (hr.cells.map pstrip)) := by
    unfold tableRecords
    rw [hrows]
  refine ⟨?_, ?_, ?_, ?_⟩
  · unfold scrape_table_data
    rw [hf]
    dsimp only
    rw [ht]
  · rw [htr, List.length_map]
  · intro i
    rw [htr, List.getElem?_map]
  · intro r h259
    rw [htr] at h259
    obtain ⟨row, _, hrw⟩ := List.mem_map.mp h259
    intro a ha
    exact tableRowRec_keys uj url (hr.cells.map pstrip) row (hrw ▸ ha)

/-- C6 (counterexample): on a table row holding an anchor, the extracted
record carries the key `_source_url`, which is neither a trimmed header
label nor a synthesized `Column_N` label — refuting the claim that every
key comes from the header labels (with `Column_N` synthesis). -/
theorem c6_counterexample :
    tableRecords idJoin "https://c6.e" c6Table =
      [[("Name", Val.vstr "A"), ("_source_url", Val.vstr "/item/1")]] ∧
    ¬ (∀ a ∈ recKeys [("Name", Val.vstr "A"), ("_source_url", Val.vstr "/item/1")],
        a ∈ ["Name"] ∨ a ∈ (List.range 1).map (fun n => "Column_" ++ toString (n + 1))) := by
  refine ⟨by decide, by decide⟩

/-- C6 (witness): a concrete location succeeds and the conclusions of the
amended theorem hold at it. -/
theorem c6_witness :
    c6Fetch "https://c6.e" = some c6Page ∧
    c6Page.selTable "table" = some c6Table ∧
    c6Table.rows = ⟨["Name"], none⟩ :: [⟨["A"], some "/item/1"⟩] ∧
    scrape_table_data idJoin c6Fetch "https://c6.e" "table" =
      some (tableRecords idJoin "https://c6.e" c6Table) ∧
    (tableRecords idJoin "https://c6.e" c6Table).length = 1 :=
  ⟨rfl, rfl, rfl,
    (c6_table_extraction idJoin c6Fetch "https://c6.e" "table" c6Page c6Table
      ⟨["Name"], none⟩ [⟨["A"], some "/item/1"⟩] rfl rfl rfl).1,
    (c6_table_extraction idJoin c6Fetch "https://c6.e" "table" c6Page c6Table
      ⟨["Name"], none⟩ [⟨["A"], some "/item/1"⟩] rfl rfl rfl).2.1⟩

/-- C3 (code evaluation): cleaning keeps rows that become entirely null
during text cleaning, because `dropna(how='all')` runs before the
empty-string nullification. On a record of blank strings in non-numeric
columns, `clean_data` returns one fully null row; on the repository's own
test input (`test_clean_and_process_data`), `clean_and_process_data`
returns 4 rows where the test asserts 3 with the blank row removed. -/
theorem c3_code_evaluation :
    (clean_data [[("name", Val.vstr ""), ("note", Val.vstr "")]]).rows =
      [[Val.vnull, Val.vnull]] ∧
    allNullRow [Val.vnull, Val.vnull] = true ∧
    (clean_and_process_data
      [[("name", Val.vstr "  Product A  "), ("price", Val.vstr "$29.99"),
        ("rating", Val.vstr "4.5")],
       [("name", Val.vstr "Product B"), ("price", Val.vstr "$39.99"),
        ("rating", Val.vstr "4.2")],
       [("name", Val.vstr ""), ("price", Val.vstr ""), ("rating", Val.vstr "")],
       [("name", Val.vstr "Product C"), ("price", Val.vstr "$19.99"),
        ("rating", Val.vstr "4.8")]]).rows.length = 4 := by
  refine ⟨by decide, by decide, by decide⟩

theorem mem_dedupAux {α : Type} [DecidableEq α] {a : α} :
    ∀ {seen l : List α}, a ∈ dedupAux seen l ↔ a ∈ l ∧ a ∉ seen := by
  intro seen l
  induction l generalizing seen with
  | nil => simp [dedupAux]
  | cons b bs ih =>
    rw [dedupAux]
    by_cases hb : b ∈ seen
    · rw [if_pos hb, ih]
      constructor
      · rintro ⟨h1, h2⟩
        exact ⟨List.mem_cons_of_mem _ h1, h2⟩
      · rintro ⟨h1, h2⟩
        rcases List.mem_cons.mp h1 with rfl | h1
        · exact absurd hb h2
        · exact ⟨h1, h2⟩
    · rw [if_neg hb, List.mem_cons, ih]
      constructor
      · rintro (rfl | ⟨h1, h2⟩)
        · exact ⟨List.mem_cons_self _ _, hb⟩
        · exact ⟨List.mem_cons_of_mem _ h1, fun hs => h2 (List.mem_cons_of_mem _ hs)⟩
      · rintro ⟨h1, h2⟩
        rcases List.mem_cons.mp h1 with rfl | h1
        · exact Or.inl rfl
        · by_cases hab : a = b
          · exact Or.inl hab
          · refine Or.inr ⟨h1, fun hs => ?_⟩
            rcases List.mem_cons.mp hs with h | h
            · exact hab h
            · exact h2 h

theorem nodup_dedupAux {α : Type} [DecidableEq α] :
    ∀ (seen l : List α), (dedupAux seen l).Nodup := by
  intro seen l
  induction l generalizing seen with
  | nil => exact List.nodup_nil
  | cons b bs ih =>
    rw [dedupAux]
    by_cases hb : b ∈ seen
    · rw [if_pos hb]
      exact ih seen
    · rw [if_neg hb]
      refine List.nodup_cons.mpr ⟨fun hmem => ?_, ih (b :: seen)⟩
      exact (mem_dedupAux.mp hmem).2 (List.mem_cons_self _ _)

theorem dedupAux_eq_self {α : Type} [DecidableEq α] :
    ∀ {l seen : List α}, l.Nodup → (∀ a ∈ l, a ∉ seen) → dedupAux seen l = l := by
  intro l
  induction l with
  | nil => intro seen _ _; rfl
  | cons b bs ih =>
    intro seen hnd hs
    rw [dedupAux, if_neg (hs b (List.mem_cons_self _ _))]
    congr 1
    refine ih (List.nodup_cons.mp hnd).2 (fun a ha => ?_)
    intro hmem
    rcases List.mem_cons.mp hmem with rfl | h
    · exact (List.nodup_cons.mp hnd).1 ha
    · exact hs a (List.mem_cons_of_mem _ ha) h

theorem mem_dedupKeepFirst {α : Type} [DecidableEq α] {a : α} {l : List α} :
    a ∈ dedupKeepFirst l ↔ a ∈ l := by
  rw [dedupKeepFirst, mem_dedupAux]
  simp

theorem nodup_dedupKeepFirst {α : Type} [DecidableEq α] (l : List α) :
    (dedupKeepFirst l).Nodup := nodup_dedupAux [] l

theorem dedupKeepFirst_eq_self {α : Type} [DecidableEq α] {l : List α}
    (h : l.Nodup) : dedupKeepFirst l = l :=
  dedupAux_eq_self h (by simp)

theorem dedupAux_nil_of_subset {α : Type} [DecidableEq α] :
    ∀ {l seen : List α}, (∀ a ∈ l, a ∈ seen) → dedupAux seen l = [] := by
  intro l
  induction l with
  | nil => intro seen _; rfl
  | cons b bs ih =>
    intro seen hs
    rw [dedupAux, if_pos (hs b (List.mem_cons_self _ _))]
    exact ih (fun a ha => hs a (List.mem_cons_of_mem _ ha))

theorem dedupAux_append_subset {α : Type} [DecidableEq α] {l2 : List α} :
    ∀ {l1 seen : List α}, (∀ b ∈ l2, b ∈ seen ∨ b ∈ l1) →
      dedupAux seen (l1 ++ l2) = dedupAux seen l1 := by
  intro l1
  induction l1 with
  | nil =>
    intro seen hs
    rw [List.nil_append]
    exact dedupAux_nil_of_subset (fun a ha => (hs a ha).resolve_right (by simp))
  | cons a l1 ih =>
    intro seen hs
    rw [List.cons_append, dedupAux, dedupAux]
    by_cases ha : a ∈ seen
    · rw [if_pos ha, if_pos ha]
      refine ih (fun b hb => ?_)
      rcases hs b hb with h | h
      · exact Or.inl h
      · rcases List.mem_cons.mp h with rfl | h
        · exact Or.inl ha
        · exact Or.inr h
    · rw [if_neg ha, if_neg ha]
      congr 1
      refine ih (fun b hb => ?_)
      rcases hs b hb with h | h
      · exact Or.inl (List.mem_cons_of_mem _ h)
      · rcases List.mem_cons.mp h with rfl | h
        · exact Or.inl (List.mem_cons_self _ _)
        · exact Or.inr h

theorem length_alignRow (cols : List String) (r : Rec) :
    (alignRow cols r).length = cols.length := List.length_map _ _

theorem keptRows_length {raw : List Rec} :
    ∀ r ∈ keptRows raw, r.length = (unifyCols raw).length := by
  intro r hr
  obtain ⟨a, _, rfl⟩ := List.mem_map.mp (List.mem_of_mem_filter hr)
  exact length_alignRow _ _

theorem stepFlags_length {σ : Type} (flagF : String → List Val → σ)
    (cols : List String) (rows : List (List Val)) :
    (stepFlags flagF cols rows).length = cols.length := by
  simp [stepFlags]

theorem stepFlags_getElem? {σ : Type} (flagF : String → List Val → σ)
    (cols : List String) (rows : List (List Val)) {j : Nat} (hj : j < cols.length) :
    (stepFlags flagF cols rows)[j]? = some (flagF (cols.getD j "") (colOf rows j)) := by
  rw [stepFlags, List.getElem?_map, List.getElem?_range hj]
  rfl

theorem perColStep_row_length {σ : Type} (flagF : String → List Val → σ)
    (cellF : σ → Val → Val) (cols : List String) (rows : List (List Val))
    (hrows : ∀ r ∈ rows, r.length = cols.length) :
    ∀ r' ∈ perColStep flagF cellF cols rows, r'.length = cols.length := by
  intro r' hr'
  obtain ⟨r, hr, rfl⟩ := List.mem_map.mp hr'
  rw [List.length_zipWith, stepFlags_length, hrows r hr]
  exact Nat.min_self _

theorem perColStep_length {σ : Type} (flagF : String → List Val → σ)
    (cellF : σ → Val → Val) (cols : List String) (rows : List (List Val)) :
    (perColStep flagF cellF cols rows).length = rows.length := List.length_map _ _

theorem colOf_perColStep {σ : Type} (flagF : String → List Val → σ)
    (cellF : σ → Val → Val) (cols : List String) (rows : List (List Val))
    (hrows : ∀ r ∈ rows, r.length = cols.length) {j : Nat} (hj : j < cols.length) :
    colOf (perColStep flagF cellF cols rows) j
      = (colOf rows j).map (cellF (flagF (cols.getD j "") (colOf rows j))) := by
  unfold colOf perColStep
  rw [List.map_map, List.map_map]
  refine List.map_congr_left (fun r hr => ?_)
  show (List.zipWith cellF (stepFlags flagF cols rows) r).getD j Val.vnull
      = cellF (flagF (cols.getD j "") (colOf rows j)) (r.getD j Val.vnull)
  have h2 : j < r.length := by rw [hrows r hr]; exact hj
  rw [List.getD_eq_getElem?_getD, List.getElem?_zipWith',
    stepFlags_getElem? flagF cols rows hj, List.getElem?_eq_getElem h2]
  simp [List.getD_eq_getElem?_getD, List.getElem?_eq_getElem h2]

/-- Two cell matrices with equal row counts, uniform row length `L`, and
equal columns below `L` are equal. -/
theorem rows_ext_cols {L : Nat} {rowsA rowsB : List (List Val)}
    (hlen : rowsA.length = rowsB.length)
    (hA : ∀ r ∈ rowsA, r.length = L) (hB : ∀ r ∈ rowsB, r.length = L)
    (hcols : ∀ j, j < L → colOf rowsA j = colOf rowsB j) : rowsA = rowsB := by
  refine List.ext_getElem? (fun i => ?_)
  cases hia : rowsA[i]? with
  | none =>
    have hge : rowsB.length ≤ i := hlen ▸ List.getElem?_eq_none_iff.mp hia
    rw [List.getElem?_eq_none hge]
  | some rA =>
    have hi : i < rowsA.length := by
      by_contra hcon
      rw [List.getElem?_eq_none (Nat.le_of_not_lt hcon)] at hia
      exact Option.noConfusion hia
    have hib : i < rowsB.length := hlen ▸ hi
    cases hib' : rowsB[i]? with
    | none =>
      rw [List.getElem?_eq_none_iff] at hib'
      exact absurd hib' (Nat.not_le_of_lt hib)
    | some rB =>
      have hrA : rA ∈ rowsA := by
        have := List.getElem?_eq_some.mp hia
        obtain ⟨h, rfl⟩ := this
        exact List.getElem_mem _
      have hrB : rB ∈ rowsB := by
        have := List.getElem?_eq_some.mp hib'
        obtain ⟨h, rfl⟩ := this
        exact List.getElem_mem _
      have hreq : rA = rB := by
        refine List.ext_getElem? (fun j => ?_)
        by_cases hj : j < L
        · have e1 : (colOf rowsA j)[i]? = some (rA.getD j Val.vnull) := by
            rw [colOf, List.getElem?_map, hia]
            rfl
          have e2 : (colOf rowsB j)[i]? = some (rB.getD j Val.vnull) := by
            rw [colOf, List.getElem?_map, hib']
            rfl
          have e3 : rA.getD j Val.vnull = rB.getD j Val.vnull := by
            have := e1.symm.trans ((hcols j hj) ▸ e2)
            exact Option.some.inj this
          have hjA : j < rA.length := by rw [hA rA hrA]; exact hj
          have hjB : j < rB.length := by rw [hB rB hrB]; exact hj
          rw [List.getElem?_eq_getElem hjA, List.getElem?_eq_getElem hjB]
          rw [List.getD_eq_getElem?_getD, List.getD_eq_getElem?_getD,
            List.getElem?_eq_getElem hjA, List.getElem?_eq_getElem hjB] at e3
          exact congrArg some e3
        · rw [List.getElem?_eq_none, List.getElem?_eq_none]
          · rw [hB rB hrB]; exact Nat.le_of_not_lt hj
          · rw [hA rA hrA]; exact Nat.le_of_not_lt hj
      rw [hreq]

theorem dropWhile_eq_self_of_all_not {p : Char → Bool} :
    ∀ {l : List Char}, (∀ c ∈ l, p c = false) → l.dropWhile p = l := by
  intro l
  induction l with
  | nil => intro _; rfl
  | cons a t _ =>
    intro h
    rw [List.dropWhile_cons, if_neg]
    simp [h a (List.mem_cons_self _ _)]

theorem dropWhile_head?_false {p : Char → Bool} {l : List Char} {c : Char}
    (h : (l.dropWhile p).head? = some c) : p c = false := by
  induction l with
  | nil => exact Option.noConfusion h
  | cons a t ih =>
    rw [List.dropWhile_cons] at h
    by_cases ha : p a
    · rw [if_pos ha] at h
      exact ih h
    · rw [if_neg ha] at h
      rw [List.head?_cons] at h
      rw [← Option.some.inj h]
      simpa using ha

theorem mem_of_head? {α : Type} {l : List α} {c : α} (h : l.head? = some c) : c ∈ l := by
  cases l with
  | nil => exact Option.noConfusion h
  | cons a t =>
    rw [List.head?_cons] at h
    rw [← Option.some.inj h]
    exact List.mem_cons_self _ _

theorem mem_of_getLast? {α : Type} {l : List α} {c : α} (h : l.getLast? = some c) :
    c ∈ l := by
  rw [← List.head?_reverse] at h
  exact List.mem_reverse.mp (mem_of_head? h)

theorem trimChars_eq_self {l : List Char}
    (h1 : ∀ c, l.head? = some c → c.isWhitespace = false)
    (h2 : ∀ c, l.getLast? = some c → c.isWhitespace = false) : trimChars l = l := by
  unfold trimChars
  have d1 : l.dropWhile Char.isWhitespace = l := by
    cases l with
    | nil => rfl
    | cons a t =>
      rw [List.dropWhile_cons, if_neg]
      simp [h1 a rfl]
  rw [d1]
  have d2 : l.reverse.dropWhile Char.isWhitespace = l.reverse := by
    cases hrev : l.reverse with
    | nil => rfl
    | cons a t =>
      rw [List.dropWhile_cons, if_neg]
      have ha : l.getLast? = some a := by
        rw [← List.head?_reverse, hrev, List.head?_cons]
      simp [h2 a ha]
  rw [d2, List.reverse_reverse]

theorem trimChars_head?_false {l : List Char} {c : Char}
    (h : (trimChars l).head? = some c) : c.isWhitespace = false := by
  unfold trimChars at h
  set a := l.dropWhile Char.isWhitespace with ha
  set b := a.reverse.dropWhile Char.isWhitespace with hb
  have hpre : b.reverse <+: a := by
    rw [show a = a.reverse.reverse from (List.reverse_reverse a).symm]
    exact List.reverse_prefix.mpr (hb ▸ List.dropWhile_suffix _)
  obtain ⟨r, hr⟩ := hpre
  have hha : a.head? = some c := by
    rw [← hr, List.head?_append, h]
    rfl
  exact dropWhile_head?_false (ha ▸ hha)

theorem trimChars_getLast?_false {l : List Char} {c : Char}
    (h : (trimChars l).getLast? = some c) : c.isWhitespace = false := by
  unfold trimChars at h
  rw [List.getLast?_reverse] at h
  exact dropWhile_head?_false h

theorem trimChars_idem (l : List Char) : trimChars (trimChars l) = trimChars l :=
  trimChars_eq_self (fun _ h => trimChars_head?_false h)
    (fun _ h => trimChars_getLast?_false h)

theorem mk_toList (s : String) : String.mk s.toList = s := rfl

theorem toList_mk (l : List Char) : (String.mk l).toList = l := rfl

theorem pstrip_idem (s : String) : pstrip (pstrip s) = pstrip s := by
  unfold pstrip
  rw [toList_mk, trimChars_idem]

theorem trimChars_eq_self_of_no_ws {l : List Char}
    (h : ∀ c ∈ l, c.isWhitespace = false) : trimChars l = l :=
  trimChars_eq_self (fun c hc => h c (mem_of_head? hc))
    (fun c hc => h c (mem_of_getLast? hc))

theorem pstrip_eq_self_of_no_ws {s : String}
    (h : ∀ c ∈ s.toList, c.isWhitespace = false) : pstrip s = s := by
  unfold pstrip
  rw [trimChars_eq_self_of_no_ws h, mk_toList]

theorem not_ws_of_digit {c : Char} (h : c.isDigit = true) : c.isWhitespace = false := by
  by_contra hcon
  have hws : c.isWhitespace = true := by
    revert hcon
    cases c.isWhitespace <;> simp
  have h4 : ((c = ' ' ∨ c = '\t') ∨ c = '\x0d') ∨ c = '\n' := by
    unfold Char.isWhitespace at hws
    simpa using hws
  rcases h4 with ((rfl | rfl) | rfl) | rfl <;> exact absurd h (by decide)

theorem not_ws_of_digitDotDash {c : Char} (h : digitDotDash c = true) :
    c.isWhitespace = false := by
  unfold digitDotDash at h
  rcases (by simpa using h : (c.isDigit = true ∨ c = '.') ∨ c = '-') with (hd | rfl) | rfl
  · exact not_ws_of_digit hd
  · decide
  · decide

theorem numStrip_toList (s : String) : (numStrip s).toList = s.toList.filter digitDotDash :=
  rfl

theorem strippedStr_numStrip (s : String) : StrippedStr (numStrip s) := by
  intro c hc
  rw [numStrip_toList] at hc
  exact List.of_mem_filter hc

theorem numStrip_eq_self {s : String} (h : StrippedStr s) : numStrip s = s := by
  unfold numStrip
  rw [List.filter_eq_self.mpr h, mk_toList]

theorem pstrip_eq_self_of_stripped {s : String} (h : StrippedStr s) : pstrip s = s :=
  pstrip_eq_self_of_no_ws (fun c hc => not_ws_of_digitDotDash (h c hc))

theorem startsHttp_head {s : String} (h : startsHttp s = true) :
    s.toList.head? = some 'h' := by
  unfold startsHttp strStarts at h
  rcases (by simpa using h :
      "http://".toList.isPrefixOf s.toList = true ∨
      "https://".toList.isPrefixOf s.toList = true) with h' | h' <;>
  · obtain ⟨r, hr⟩ := List.isPrefixOf_iff_prefix.mp h'
    rw [← hr, List.head?_append]
    rfl

theorem startsHttp_false_of_stripped {s : String} (h : StrippedStr s) :
    startsHttp s = false := by
  by_contra hcon
  have hh : startsHttp s = true := by
    revert hcon
    cases startsHttp s <;> simp
  have := h 'h' (mem_of_head? (startsHttp_head hh))
  exact absurd this (by decide)

theorem startsHttp_not_nullLit {s : String} (h : startsHttp s = true) :
    s ∉ nullLits := by
  intro hmem
  have hh := startsHttp_head h
  rcases (by simpa [nullLits] using hmem : s = "" ∨ s = "None" ∨ s = "nan") with
    rfl | rfl | rfl <;> exact absurd hh (by decide)

theorem stripped_not_special_nullLit {s : String} (h : StrippedStr s) :
    s ∈ nullLits → s = "" := by
  intro hmem
  rcases (by simpa [nullLits] using hmem : s = "" ∨ s = "None" ∨ s = "nan") with
    rfl | rfl | rfl
  · rfl
  · exact absurd (h 'N' (by decide)) (by decide)
  · exact absurd (h 'n' (by decide)) (by decide)

theorem textCleanVal_cleanCell (v : Val) : CleanCell (textCleanVal v) := by
  unfold textCleanVal
  by_cases h : pstrip (pyStr v) ∈ nullLits
  · rw [if_pos h]
    exact Or.inl rfl
  · rw [if_neg h]
    exact Or.inr ⟨pstrip (pyStr v), rfl, pstrip_idem _, h⟩

theorem cleanUrlVal_urlCell (v : Val) : UrlCell (cleanUrlVal v) := by
  cases v with
  | vnull => exact Or.inl rfl
  | vstr s =>
    rw [cleanUrlVal]
    by_cases h0 : s = ""
    · rw [if_pos h0]; exact Or.inl rfl
    · rw [if_neg h0]
      by_cases hh : startsHttp (pstrip s)
      · rw [if_pos hh]
        exact Or.inr ⟨pstrip s, rfl, pstrip_idem _, hh⟩
      · rw [if_neg hh]
        exact Or.inl rfl
  | vnum s =>
    rw [cleanUrlVal]
    by_cases h0 : numIsZero s
    · rw [if_pos h0]; exact Or.inl rfl
    · rw [if_neg h0]
      by_cases hh : startsHttp (pstrip s)
      · rw [if_pos hh]
        exact Or.inr ⟨pstrip s, rfl, pstrip_idem _, hh⟩
      · rw [if_neg hh]
        exact Or.inl rfl

theorem textCleanVal_vnull : textCleanVal Val.vnull = Val.vnull := by decide

theorem textCleanVal_of_clean {v : Val} (h : CleanCell v) : textCleanVal v = v := by
  rcases h with rfl | ⟨s, rfl, hps, hnl⟩
  · exact textCleanVal_vnull
  · unfold textCleanVal
    rw [show pyStr (Val.vstr s) = s from rfl, hps, if_neg hnl]

theorem startsHttp_ne_empty {s : String} (h : startsHttp s = true) : s ≠ "" := by
  intro he
  rw [he] at h
  exact absurd h (by decide)

theorem textCleanVal_of_url {v : Val} (h : UrlCell v) : textCleanVal v = v := by
  rcases h with rfl | ⟨s, rfl, hps, hht⟩
  · exact textCleanVal_vnull
  · unfold textCleanVal
    rw [show pyStr (Val.vstr s) = s from rfl, hps, if_neg (startsHttp_not_nullLit hht)]

theorem textCell_of_clean {b : Bool} {v : Val} (h : CleanCell v) : textCell b v = v := by
  cases b with
  | false => rfl
  | true => exact textCleanVal_of_clean h

theorem textCell_of_url {b : Bool} {v : Val} (h : UrlCell v) : textCell b v = v := by
  cases b with
  | false => rfl
  | true => exact textCleanVal_of_url h

theorem cleanUrlVal_of_url {v : Val} (h : UrlCell v) : cleanUrlVal v = v := by
  rcases h with rfl | ⟨s, rfl, hps, hht⟩
  · rfl
  · rw [cleanUrlVal, if_neg (startsHttp_ne_empty hht), hps, if_pos hht]

theorem colOf_textCleanStep (cols : List String) (rows : List (List Val))
    (hrows : ∀ r ∈ rows, r.length = cols.length) {j : Nat} (hj : j < cols.length) :
    colOf (textCleanStep cols rows) j = colText (colOf rows j) :=
  colOf_perColStep objFlag textCell cols rows hrows hj

theorem colOf_numericStep (cols : List String) (rows : List (List Val))
    (hrows : ∀ r ∈ rows, r.length = cols.length) {j : Nat} (hj : j < cols.length) :
    colOf (numericStep cols rows) j = colNum (cols.getD j "") (colOf rows j) :=
  colOf_perColStep numFlag numCell cols rows hrows hj

theorem colOf_urlStep (cols : List String) (rows : List (List Val))
    (hrows : ∀ r ∈ rows, r.length = cols.length) {j : Nat} (hj : j < cols.length) :
    colOf (urlStep cols rows) j = colUrl (cols.getD j "") (colOf rows j) :=
  colOf_perColStep urlFlag urlCell cols rows hrows hj

theorem clean_data_eq (raw : List Rec) (h : raw ≠ []) :
    clean_data raw =
      DF.mk (unifyCols raw) (dedupKeepFirst (pipeRows (unifyCols raw) (keptRows raw))) := by
  unfold clean_data
  rw [if_neg (by simp [List.isEmpty_iff, h])]
  rfl

theorem map_cell_id {α : Type} {f : α → α} (hf : ∀ v, f v = v) :
    ∀ c : List α, c.map f = c
  | [] => rfl
  | a :: t => by rw [List.map_cons, hf a, map_cell_id hf t]

theorem pipeRows_row_length (cols : List String) (rows : List (List Val))
    (hrows : ∀ r ∈ rows, r.length = cols.length) :
    ∀ r ∈ pipeRows cols rows, r.length = cols.length := by
  refine perColStep_row_length _ _ _ _ (perColStep_row_length _ _ _ _ ?_)
  exact perColStep_row_length _ _ _ _ hrows

theorem pipeRows_length (cols : List String) (rows : List (List Val)) :
    (pipeRows cols rows).length = rows.length := by
  unfold pipeRows urlStep numericStep textCleanStep
  rw [perColStep_length, perColStep_length, perColStep_length]

theorem colOf_pipeRows (cols : List String) (rows : List (List Val))
    (hrows : ∀ r ∈ rows, r.length = cols.length) {j : Nat} (hj : j < cols.length) :
    colOf (pipeRows cols rows) j =
      colUrl (cols.getD j "") (colNum (cols.getD j "") (colText (colOf rows j))) := by
  unfold pipeRows
  have h2 : ∀ r ∈ textCleanStep cols rows, r.length = cols.length :=
    perColStep_row_length _ _ _ _ hrows
  have h3 : ∀ r ∈ numericStep cols (textCleanStep cols rows), r.length = cols.length :=
    perColStep_row_length _ _ _ _ h2
  rw [colOf_urlStep cols (numericStep cols (textCleanStep cols rows)) h3 hj,
    colOf_numericStep cols (textCleanStep cols rows) h2 hj,
    colOf_textCleanStep cols rows hrows hj]

theorem mem_colOf_dedup {rows : List (List Val)} {j : Nat} {v : Val} :
    v ∈ colOf (dedupKeepFirst rows) j ↔ v ∈ colOf rows j := by
  unfold colOf
  constructor
  · intro h
    obtain ⟨r, hr, rfl⟩ := List.mem_map.mp h
    exact List.mem_map.mpr ⟨r, mem_dedupKeepFirst.mp hr, rfl⟩
  · intro h
    obtain ⟨r, hr, rfl⟩ := List.mem_map.mp h
    exact List.mem_map.mpr ⟨r, mem_dedupKeepFirst.mpr hr, rfl⟩

theorem colUrl_not_url {name : String} {c : List Val} (hU : isUrlName name = false) :
    colUrl name c = c := by
  unfold colUrl urlFlag
  rw [hU]
  exact map_cell_id (fun v => rfl) c

theorem colUrl_url {name : String} {c : List Val} (hU : isUrlName name = true) :
    colUrl name c = c.map cleanUrlVal := by
  unfold colUrl urlFlag
  rw [hU]
  refine List.map_congr_left (fun v _ => ?_)
  rfl

theorem colNum_not_numeric {name : String} {c : List Val} (hN : isNumericName name = false) :
    colNum name c = c := by
  unfold colNum numFlag
  rw [if_neg (by simp [hN])]
  exact map_cell_id (fun v => rfl) c

theorem colNum_numeric {name : String} {c : List Val} (hN : isNumericName name = true) :
    colNum name c = c.map (numCell (some (colParses c))) := by
  unfold colNum numFlag
  rw [if_pos hN]

theorem cleanUrlVal_vnum_stripped {s : String} (h : StrippedStr s) :
    cleanUrlVal (Val.vnum s) = Val.vnull := by
  rw [cleanUrlVal]
  by_cases h0 : numIsZero s
  · rw [if_pos h0]
  · rw [if_neg h0, pstrip_eq_self_of_stripped h]
    rw [if_neg (by simp [startsHttp_false_of_stripped h])]

theorem cleanUrlVal_vstr_stripped {s : String} (h : StrippedStr s) :
    cleanUrlVal (Val.vstr s) = Val.vnull := by
  rw [cleanUrlVal]
  by_cases h0 : s = ""
  · rw [if_pos h0]
  · rw [if_neg h0, pstrip_eq_self_of_stripped h]
    rw [if_neg (by simp [startsHttp_false_of_stripped h])]

/-- Characterization of an output column whose name carries a numeric
indicator and no url/link token: either the whole column was coerced to
numbers that parse, or the whole column is the stripped strings and some
cell fails to parse. -/
theorem pipeCol_numeric {name : String} {c : List Val}
    (hN : isNumericName name = true) (hU : isUrlName name = false) :
    (∀ v ∈ colUrl name (colNum name (colText c)),
        ∃ s, v = Val.vnum s ∧ StrippedStr s ∧ isNumStr s = true) ∨
    ((∀ v ∈ colUrl name (colNum name (colText c)),
        ∃ s, v = Val.vstr s ∧ StrippedStr s) ∧
      ∃ s, Val.vstr s ∈ colUrl name (colNum name (colText c)) ∧ isNumStr s = false) := by
  rw [colUrl_not_url hU, colNum_numeric]
  · cases hb : colParses (colText c) with
    | true =>
      left
      intro v hv
      obtain ⟨w, hw, rfl⟩ := List.mem_map.mp hv
      refine ⟨numStrip (pyStr w), by simp [numCell], strippedStr_numStrip _, ?_⟩
      have := List.all_eq_true.mp hb (numStrip (pyStr w))
        (List.mem_map.mpr ⟨w, hw, rfl⟩)
      exact this
    | false =>
      right
      constructor
      · intro v hv
        obtain ⟨w, hw, rfl⟩ := List.mem_map.mp hv
        exact ⟨numStrip (pyStr w), by simp [numCell], strippedStr_numStrip _⟩
      · obtain ⟨x, hx, hnx⟩ := List.all_eq_false.mp hb
        obtain ⟨w, hw, rfl⟩ := List.mem_map.mp hx
        refine ⟨numStrip (pyStr w), List.mem_map.mpr ⟨w, hw, by simp [numCell]⟩, ?_⟩
        simpa using hnx
  · exact hN

/-- Characterization of an output column whose name carries both a numeric
indicator and a url/link token: every cell is null (the numeric pass
strips cells to the digit alphabet, which the url pass then rejects). -/
theorem pipeCol_numeric_url {name : String} {c : List Val}
    (hN : isNumericName name = true) (hU : isUrlName name = true) :
    ∀ v ∈ colUrl name (colNum name (colText c)), v = Val.vnull := by
  rw [colUrl_url hU, colNum_numeric hN]
  intro v hv
  obtain ⟨w, hw, rfl⟩ := List.mem_map.mp hv
  obtain ⟨u, hu, rfl⟩ := List.mem_map.mp hw
  cases hb : colParses (colText c) with
  | true => simp [numCell, hb, cleanUrlVal_vnum_stripped (strippedStr_numStrip _)]
  | false => simp [numCell, hb, cleanUrlVal_vstr_stripped (strippedStr_numStrip _)]

/-- Characterization of an output column whose name carries a url/link
token and no numeric indicator: every cell is null or a trimmed http(s)
string. -/
theorem pipeCol_url {name : String} {c : List Val}
    (hN : isNumericName name = false) (hU : isUrlName name = true) :
    ∀ v ∈ colUrl name (colNum name (colText c)), UrlCell v := by
  rw [colNum_not_numeric hN, colUrl_url hU]
  intro v hv
  obtain ⟨w, _, rfl⟩ := List.mem_map.mp hv
  exact cleanUrlVal_urlCell w

/-- Characterization of an output column with neither indicator: either
text cleaning ran (every cell null or a trimmed non-literal string) or the
column was not object-typed (no strings, and some cell non-null). -/
theorem pipeCol_other {name : String} {c : List Val}
    (hN : isNumericName name = false) (hU : isUrlName name = false) :
    (∀ v ∈ colUrl name (colNum name (colText c)), CleanCell v) ∨
    ((∀ v ∈ colUrl name (colNum name (colText c)), v.isStr = false) ∧
      ∃ v ∈ colUrl name (colNum name (colText c)), v.isNull = false) := by
  rw [colUrl_not_url hU, colNum_not_numeric hN]
  unfold colText
  cases hobj : isObjectCol c with
  | true =>
    left
    intro v hv
    obtain ⟨w, _, rfl⟩ := List.mem_map.mp hv
    exact (show textCell true w = textCleanVal w from rfl) ▸ textCleanVal_cleanCell w
  | false =>
    right
    have hpair : c.any Val.isStr = false ∧ c.all Val.isNull = false := by
      have hcopy := hobj
      unfold isObjectCol at hcopy
      exact Bool.or_eq_false_iff.mp hcopy
    rw [show c.map (textCell false) = c from map_cell_id (fun v => rfl) c]
    constructor
    · intro v hv
      have := List.any_eq_false.mp hpair.1 v hv
      simpa using this
    · obtain ⟨v, hv, hnv⟩ := List.all_eq_false.mp hpair.2
      exact ⟨v, hv, by simpa using hnv⟩

theorem mem_outCol (raw : List Rec) (h : raw ≠ []) {j : Nat}
    (hj : j < (unifyCols raw).length) {v : Val} :
    v ∈ colOf (clean_data raw).rows j ↔
      v ∈ colUrl ((unifyCols raw).getD j "") (colNum ((unifyCols raw).getD j "")
        (colText (colOf (keptRows raw) j))) := by
  rw [clean_data_eq raw h]
  dsimp only
  rw [mem_colOf_dedup, colOf_pipeRows (unifyCols raw) (keptRows raw) keptRows_length hj]

/-- C2 (amended): in the cleaned frame, a column whose lowercased name
contains a numeric-indicator token (and no url/link token) is homogeneous:
either every cell is a number — and then every cell's stripped string
parses — or every cell is the stripped string form of its input and at
least one of those stripped strings fails to parse. No individual cell is
nulled by the numeric pass: `pd.to_numeric(..., errors='ignore')` falls
back to the whole stripped column on any failure. -/
theorem c2_numeric_column_all_or_nothing (raw : List Rec) (j : Nat)
    (hj : j < (clean_data raw).cols.length)
    (hN : isNumericName ((clean_data raw).cols.getD j "") = true)
    (hU : isUrlName ((clean_data raw).cols.getD j "") = false) :
    (∀ v ∈ colOf (clean_data raw).rows j,
        ∃ s, v = Val.vnum s ∧ StrippedStr s ∧ isNumStr s = true) ∨
    ((∀ v ∈ colOf (clean_data raw).rows j,
        ∃ s, v = Val.vstr s ∧ StrippedStr s) ∧
      ∃ s, Val.vstr s ∈ colOf (clean_data raw).rows j ∧ isNumStr s = false) := by
  by_cases hraw : raw = []
  · subst hraw
    exact absurd hj (by simp [clean_data])
  · have hcols : (clean_data raw).cols = unifyCols raw := by
      rw [clean_data_eq raw hraw]
    rw [hcols] at hj hN hU
    rcases @pipeCol_numeric ((unifyCols raw).getD j "") (colOf (keptRows raw) j) hN hU with
      hcase | ⟨hall, s, hs, hns⟩
    · left
      intro v hv
      exact hcase v ((mem_outCol raw hraw hj).mp hv)
    · right
      refine ⟨fun v hv => hall v ((mem_outCol raw hraw hj).mp hv),
        ⟨s, (mem_outCol raw hraw hj).mpr hs, hns⟩⟩

/-- C2 (counterexample): with cells `"$10"` and `"abc"` in a `price`
column, the failing cell does not become null and the parsing cell is not
coerced: the whole column is left as the stripped strings `"10"` and
`""`. -/
theorem c2_counterexample :
    (clean_data [[("price", Val.vstr "$10")], [("price", Val.vstr "abc")]]).rows =
      [[Val.vstr "10"], [Val.vstr ""]] ∧
    (clean_data [[("price", Val.vstr "$10")], [("price", Val.vstr "abc")]]).rows ≠
      [[Val.vnum "10"], [Val.vnull]] :=
  ⟨by decide, by decide⟩

/-- C2 (witness): a one-cell `price` column at a concrete input, with the
homogeneity conclusion instantiated by the theorem. -/
theorem c2_witness :
    0 < (clean_data [[("price", Val.vstr "$10")]]).cols.length ∧
    isNumericName ((clean_data [[("price", Val.vstr "$10")]]).cols.getD 0 "") = true ∧
    isUrlName ((clean_data [[("price", Val.vstr "$10")]]).cols.getD 0 "") = false ∧
    ((∀ v ∈ colOf (clean_data [[("price", Val.vstr "$10")]]).rows 0,
        ∃ s, v = Val.vnum s ∧ StrippedStr s ∧ isNumStr s = true) ∨
      ((∀ v ∈ colOf (clean_data [[("price", Val.vstr "$10")]]).rows 0,
          ∃ s, v = Val.vstr s ∧ StrippedStr s) ∧
        ∃ s, Val.vstr s ∈ colOf (clean_data [[("price", Val.vstr "$10")]]).rows 0 ∧
          isNumStr s = false)) :=
  ⟨by decide, by decide, by decide,
    c2_numeric_column_all_or_nothing [[("price", Val.vstr "$10")]] 0
      (by decide) (by decide) (by decide)⟩

theorem getC_eq (rows : List (List Val)) (i j : Nat) :
    getC rows i j = ((colOf rows j)[i]?).getD Val.vnull := by
  unfold getC colOf
  rw [List.getElem?_map]
  rw [show rows.getD i [] = (rows[i]?).getD [] from List.getD_eq_getElem?_getD rows i []]
  cases rows[i]? with
  | none => rfl
  | some r => rfl

/-- C5: every textual cell surviving the empty-row drop is text-cleaned:
its surrounding whitespace is trimmed, and it becomes null exactly when
the trimmed string is one of the literals `""`, `"None"`, `"nan"`. -/
theorem c5_text_cleaning (raw : List Rec) (i j : Nat) (s : String)
    (h : getC (keptRows raw) i j = Val.vstr s) :
    getC (textCleanStep (unifyCols raw) (keptRows raw)) i j =
      (if pstrip s ∈ nullLits then Val.vnull else Val.vstr (pstrip s)) := by
  rw [getC_eq] at h
  have hi : (colOf (keptRows raw) j)[i]? = some (Val.vstr s) := by
    cases hx : (colOf (keptRows raw) j)[i]? with
    | none => rw [hx] at h; exact absurd h (by simp)
    | some w => rw [hx] at h; rw [show w = Val.vstr s from h]
  have hmem : Val.vstr s ∈ colOf (keptRows raw) j := List.mem_iff_getElem?.mpr ⟨i, hi⟩
  have hflag : isObjectCol (colOf (keptRows raw) j) = true := by
    unfold isObjectCol
    rw [Bool.or_eq_true]
    exact Or.inl (List.any_eq_true.mpr ⟨Val.vstr s, hmem, rfl⟩)
  have hjlt : j < (unifyCols raw).length := by
    obtain ⟨r, hr, hrv⟩ := List.mem_map.mp hmem
    by_contra hcon
    have hge : r.length ≤ j := by
      rw [keptRows_length r hr]
      exact Nat.le_of_not_lt hcon
    rw [List.getD_eq_getElem?_getD, List.getElem?_eq_none hge] at hrv
    exact Val.noConfusion hrv
  rw [getC_eq, colOf_textCleanStep (unifyCols raw) (keptRows raw) keptRows_length hjlt]
  unfold colText
  rw [hflag, List.getElem?_map, hi]
  show textCleanVal (Val.vstr s) = _
  unfold textCleanVal
  rfl

/-- C5 (witness): the cell `"  None "` survives the raw empty-row drop and
is trimmed to the literal `"None"`, hence nulled, by the text pass. -/
theorem c5_witness :
    getC (keptRows [[("name", Val.vstr "  None ")]]) 0 0 = Val.vstr "  None " ∧
    getC (textCleanStep (unifyCols [[("name", Val.vstr "  None ")]])
        (keptRows [[("name", Val.vstr "  None ")]])) 0 0 =
      (if pstrip "  None " ∈ nullLits then Val.vnull else Val.vstr (pstrip "  None ")) :=
  ⟨by decide, c5_text_cleaning [[("name", Val.vstr "  None ")]] 0 0 "  None " (by decide)⟩

theorem map_eq_self_of_mem {α : Type} {f : α → α} :
    ∀ {c : List α}, (∀ v ∈ c, f v = v) → c.map f = c
  | [], _ => rfl
  | a :: t, h => by
    rw [List.map_cons, h a (List.mem_cons_self _ _),
      map_eq_self_of_mem (fun v hv => h v (List.mem_cons_of_mem _ hv))]

theorem numCell_some_true (v : Val) :
    numCell (some true) v = Val.vnum (numStrip (pyStr v)) := rfl

theorem numCell_some_false (v : Val) :
    numCell (some false) v = Val.vstr (numStrip (pyStr v)) := rfl

theorem strip_pyStr_textCleanVal_stripped {s : String} (h : StrippedStr s) :
    numStrip (pyStr (textCleanVal (Val.vstr s))) = s := by
  by_cases h0 : s ∈ nullLits
  · have hse : s = "" := stripped_not_special_nullLit h h0
    subst hse
    decide
  · unfold textCleanVal
    rw [show pyStr (Val.vstr s) = s from rfl, pstrip_eq_self_of_stripped h, if_neg h0]
    exact numStrip_eq_self h

theorem numCell_false_textCleanVal_stripped {s : String} (h : StrippedStr s) :
    numCell (some false) (textCleanVal (Val.vstr s)) = Val.vstr s := by
  rw [numCell_some_false, strip_pyStr_textCleanVal_stripped h]

/-- A fully numeric output column is untouched by a second cleaning. -/
theorem passTwo_num_success {name : String} {c : List Val}
    (hN : isNumericName name = true) (hU : isUrlName name = false)
    (hc : ∀ v ∈ c, ∃ s, v = Val.vnum s ∧ StrippedStr s ∧ isNumStr s = true) :
    colUrl name (colNum name (colText c)) = c := by
  cases c with
  | nil => rfl
  | cons v0 c' =>
    have hobj : isObjectCol (v0 :: c') = false := by
      unfold isObjectCol
      rw [Bool.or_eq_false_iff]
      constructor
      · refine List.any_eq_false.mpr (fun v hv => ?_)
        obtain ⟨s, rfl, _, _⟩ := hc v hv
        simp [Val.isStr]
      · refine List.all_eq_false.mpr ⟨v0, List.mem_cons_self _ _, ?_⟩
        obtain ⟨s, rfl, _, _⟩ := hc v0 (List.mem_cons_self _ _)
        simp [Val.isNull]
    have h1 : colText (v0 :: c') = v0 :: c' := by
      unfold colText
      rw [hobj]
      exact map_cell_id (fun v => rfl) _
    rw [h1, colUrl_not_url hU, colNum_numeric hN]
    have hp : colParses (v0 :: c') = true := by
      refine List.all_eq_true.mpr (fun x hx => ?_)
      obtain ⟨v, hv, rfl⟩ := List.mem_map.mp hx
      obtain ⟨s, rfl, hst, hns⟩ := hc v hv
      rw [show pyStr (Val.vnum s) = s from rfl, numStrip_eq_self hst]
      exact hns
    rw [hp]
    refine map_eq_self_of_mem (fun v hv => ?_)
    obtain ⟨s, rfl, hst, _⟩ := hc v hv
    rw [numCell_some_true, show pyStr (Val.vnum s) = s from rfl, numStrip_eq_self hst]

/-- A stripped-strings output column (failed numeric coercion) is
untouched by a second cleaning: the empty cells bounce through null and
back to the empty string, and the column still fails to parse. -/
theorem passTwo_num_fail {name : String} {c : List Val}
    (hN : isNumericName name = true) (hU : isUrlName name = false)
    (hall : ∀ v ∈ c, ∃ s, v = Val.vstr s ∧ StrippedStr s)
    (hex : ∃ s, Val.vstr s ∈ c ∧ isNumStr s = false) :
    colUrl name (colNum name (colText c)) = c := by
  rw [colUrl_not_url hU]
  have hflag : isObjectCol c = true := by
    obtain ⟨s, hs, _⟩ := hex
    unfold isObjectCol
    rw [Bool.or_eq_true]
    exact Or.inl (List.any_eq_true.mpr ⟨_, hs, rfl⟩)
  unfold colText
  rw [hflag]
  rw [colNum_numeric hN]
  have hstripmap :
      (c.map (textCell true)).map (fun v => numStrip (pyStr v)) =
        c.map (fun v => numStrip (pyStr v)) := by
    rw [List.map_map]
    refine List.map_congr_left (fun v hv => ?_)
    obtain ⟨s, rfl, hst⟩ := hall v hv
    show numStrip (pyStr (textCleanVal (Val.vstr s))) = numStrip (pyStr (Val.vstr s))
    rw [strip_pyStr_textCleanVal_stripped hst, show pyStr (Val.vstr s) = s from rfl,
      numStrip_eq_self hst]
  have hp : colParses (c.map (textCell true)) = false := by
    unfold colParses
    rw [hstripmap]
    obtain ⟨s, hs, hns⟩ := hex
    obtain ⟨s', heq, hst'⟩ := hall _ hs
    have hss : s' = s := Val.vstr.inj heq.symm
    subst hss
    refine List.all_eq_false.mpr ⟨s', ?_, by simp [hns]⟩
    refine List.mem_map.mpr ⟨Val.vstr s', hs, ?_⟩
    rw [show pyStr (Val.vstr s') = s' from rfl, numStrip_eq_self hst']
  rw [hp, List.map_map]
  refine map_eq_self_of_mem (fun v hv => ?_)
  obtain ⟨s, rfl, hst⟩ := hall v hv
  show numCell (some false) (textCell true (Val.vstr s)) = Val.vstr s
  exact numCell_false_textCleanVal_stripped hst

/-- A fully null output column (a url-and-numeric column) is untouched by
a second cleaning: nulls stringify to the empty string in the numeric
pass, which the url pass maps back to null. -/
theorem passTwo_allnull {name : String} {c : List Val}
    (hN : isNumericName name = true) (hU : isUrlName name = true)
    (hc : ∀ v ∈ c, v = Val.vnull) :
    colUrl name (colNum name (colText c)) = c := by
  cases c with
  | nil => rfl
  | cons v0 c' =>
    have h1 : colText (v0 :: c') = v0 :: c' := by
      unfold colText
      refine map_eq_self_of_mem (fun v hv => ?_)
      rw [hc v hv]
      cases isObjectCol (v0 :: c') with
      | false => rfl
      | true => exact textCleanVal_vnull
    rw [h1, colNum_numeric hN]
    have hp : colParses (v0 :: c') = false := by
      refine List.all_eq_false.mpr ⟨numStrip (pyStr Val.vnull), ?_, by decide⟩
      refine List.mem_map.mpr ⟨v0, List.mem_cons_self _ _, ?_⟩
      rw [hc v0 (List.mem_cons_self _ _)]
    rw [hp, colUrl_url hU, List.map_map]
    refine map_eq_self_of_mem (fun v hv => ?_)
    rw [hc v hv]
    decide

/-- A url-cleaned output column is untouched by a second cleaning. -/
theorem passTwo_url {name : String} {c : List Val}
    (hN : isNumericName name = false) (hU : isUrlName name = true)
    (hc : ∀ v ∈ c, UrlCell v) :
    colUrl name (colNum name (colText c)) = c := by
  have h1 : colText c = c := by
    unfold colText
    exact map_eq_self_of_mem (fun v hv => textCell_of_url (hc v hv))
  rw [h1, colNum_not_numeric hN, colUrl_url hU]
  exact map_eq_self_of_mem (fun v hv => cleanUrlVal_of_url (hc v hv))

/-- An output column with neither indicator is untouched by a second
cleaning. -/
theorem passTwo_other {name : String} {c : List Val}
    (hN : isNumericName name = false) (hU : isUrlName name = false)
    (hchar : (∀ v ∈ c, CleanCell v) ∨
      ((∀ v ∈ c, v.isStr = false) ∧ ∃ v ∈ c, v.isNull = false)) :
    colUrl name (colNum name (colText c)) = c := by
  rw [show colNum name (colText c) = colText c from colNum_not_numeric hN,
    colUrl_not_url hU]
  rcases hchar with hclean | ⟨hstr, v0, hv0, hnn⟩
  · unfold colText
    exact map_eq_self_of_mem (fun v hv => textCell_of_clean (hclean v hv))
  · have hobj : isObjectCol c = false := by
      unfold isObjectCol
      rw [Bool.or_eq_false_iff]
      refine ⟨List.any_eq_false.mpr (fun v hv => by simp [hstr v hv]), ?_⟩
      exact List.all_eq_false.mpr ⟨v0, hv0, by simp [hnn]⟩
    unfold colText
    rw [hobj]
    exact map_cell_id (fun v => rfl) c

theorem recKeys_zip {cols : List String} {r : List Val} (h : r.length = cols.length) :
    recKeys (cols.zip r) = cols := by
  unfold recKeys
  exact List.map_fst_zip cols r (Nat.le_of_eq h.symm)

theorem lookupVal_cons_self {k : String} {v : Val} {rest : Rec} :
    lookupVal ((k, v) :: rest) k = v := by
  unfold lookupVal
  rw [List.find?_cons_of_pos _ (by simp)]

theorem lookupVal_cons_ne {k k' : String} {v : Val} {rest : Rec} (hne : k' ≠ k) :
    lookupVal ((k, v) :: rest) k' = lookupVal rest k' := by
  unfold lookupVal
  rw [List.find?_cons_of_neg _ (by simp [Ne.symm hne])]

theorem alignRow_zip :
    ∀ {cols : List String} {r : List Val}, cols.Nodup → r.length = cols.length →
      alignRow cols (cols.zip r) = r := by
  intro cols
  induction cols with
  | nil =>
    intro r _ h
    have hr : r = [] := List.length_eq_zero.mp (by simpa using h)
    subst hr
    rfl
  | cons k ks ih =>
    intro r hnd hlen
    cases r with
    | nil => exact absurd hlen (by simp)
    | cons v vs =>
      show (k :: ks).map (lookupVal ((k :: ks).zip (v :: vs))) = v :: vs
      rw [List.zip_cons_cons, List.map_cons]
      congr 1
      · exact lookupVal_cons_self
      · have hknotin : k ∉ ks := (List.nodup_cons.mp hnd).1
        rw [List.map_congr_left
          (fun k' hk' => lookupVal_cons_ne (fun he => hknotin (by rw [← he]; exact hk')))]
        exact ih (List.nodup_cons.mp hnd).2 (by simpa using hlen)

theorem nodup_unifyCols (raw : List Rec) : (unifyCols raw).Nodup :=
  nodup_dedupKeepFirst _

theorem unifyCols_zip_rows {cols : List String} {R : List (List Val)}
    (hnd : cols.Nodup) (hlen : ∀ r ∈ R, r.length = cols.length) (hne : R ≠ []) :
    unifyCols (R.map (fun r => cols.zip r)) = cols := by
  unfold unifyCols
  rw [List.map_map]
  have hmapeq : R.map (recKeys ∘ fun r => cols.zip r) = R.map (fun _ => cols) :=
    List.map_congr_left (fun r hr => recKeys_zip (hlen r hr))
  rw [hmapeq]
  cases R with
  | nil => exact absurd rfl hne
  | cons r0 R' =>
    rw [List.map_cons, List.flatten_cons]
    have hsub : ∀ b ∈ (R'.map (fun _ => cols)).flatten, b ∈ ([] : List String) ∨ b ∈ cols := by
      intro b hb
      obtain ⟨l, hl, hbl⟩ := List.mem_flatten.mp hb
      obtain ⟨_, _, rfl⟩ := List.mem_map.mp hl
      exact Or.inr hbl
    rw [show dedupKeepFirst (cols ++ (R'.map (fun _ => cols)).flatten)
        = dedupKeepFirst cols from dedupAux_append_subset hsub]
    exact dedupKeepFirst_eq_self hnd

/-- C4 (amended): `normalize` is idempotent on every input whose normalized
frame has at least one row and no entirely-null row: re-normalizing the
frame's records reproduces the frame. (The counterexample shows both
guards are needed: cleaning can create fully null rows that only the
second pass drops, and an all-rows-dropped frame loses its column list on
re-normalization.) -/
theorem c4_normalize_idempotent_conditional (raw : List Rec)
    (hne : (clean_data raw).rows ≠ [])
    (hnn : ∀ r ∈ (clean_data raw).rows, allNullRow r = false) :
    clean_data (dfToRecords (clean_data raw)) = clean_data raw := by
  have hraw : raw ≠ [] := by
    intro h
    subst h
    exact hne rfl
  have hd := clean_data_eq raw hraw
  have hRlen : ∀ r ∈ (clean_data raw).rows, r.length = (unifyCols raw).length := by
    intro r hr
    rw [hd] at hr
    dsimp only at hr
    exact pipeRows_row_length _ _ keptRows_length r (mem_dedupKeepFirst.mp hr)
  have hRnodup : (clean_data raw).rows.Nodup := by
    rw [hd]
    exact nodup_dedupKeepFirst _
  have hraw' : dfToRecords (clean_data raw) =
      (clean_data raw).rows.map (fun r => (unifyCols raw).zip r) := by
    unfold dfToRecords
    have hcols0 : (clean_data raw).cols = unifyCols raw := by rw [hd]
    rw [hcols0]
  have hne' : dfToRecords (clean_data raw) ≠ [] := by
    rw [hraw']
    intro hcon
    exact hne (List.map_eq_nil_iff.mp hcon)
  have hcols' : unifyCols (dfToRecords (clean_data raw)) = unifyCols raw := by
    rw [hraw']
    exact unifyCols_zip_rows (nodup_unifyCols raw) hRlen hne
  have hkept : keptRows (dfToRecords (clean_data raw)) = (clean_data raw).rows := by
    unfold keptRows
    rw [hcols', hraw', List.map_map]
    have hmapid : (clean_data raw).rows.map
        ((alignRow (unifyCols raw)) ∘ (fun r => (unifyCols raw).zip r)) =
        (clean_data raw).rows :=
      map_eq_self_of_mem
        (fun r hr => alignRow_zip (nodup_unifyCols raw) (hRlen r hr))
    rw [hmapid, List.filter_eq_self.mpr]
    intro r hr
    simp [hnn r hr]
  have hpipe : pipeRows (unifyCols raw) (clean_data raw).rows = (clean_data raw).rows := by
    refine @rows_ext_cols (unifyCols raw).length _ _ ?_ ?_ hRlen ?_
    · rw [pipeRows_length]
    · exact pipeRows_row_length _ _ hRlen
    · intro j hj
      rw [colOf_pipeRows (unifyCols raw) (clean_data raw).rows hRlen hj]
      cases hN : isNumericName ((unifyCols raw).getD j "") with
      | true =>
        cases hU : isUrlName ((unifyCols raw).getD j "") with
        | false =>
          rcases @pipeCol_numeric ((unifyCols raw).getD j "")
              (colOf (keptRows raw) j) hN hU with hcase | ⟨hall, s, hs, hns⟩
          · exact passTwo_num_success hN hU
              (fun v hv => hcase v ((mem_outCol raw hraw hj).mp hv))
          · exact passTwo_num_fail hN hU
              (fun v hv => hall v ((mem_outCol raw hraw hj).mp hv))
              ⟨s, (mem_outCol raw hraw hj).mpr hs, hns⟩
        | true =>
          exact passTwo_allnull hN hU
            (fun v hv => @pipeCol_numeric_url ((unifyCols raw).getD j "")
              (colOf (keptRows raw) j) hN hU v ((mem_outCol raw hraw hj).mp hv))
      | false =>
        cases hU : isUrlName ((unifyCols raw).getD j "") with
        | true =>
          exact passTwo_url hN hU
            (fun v hv => @pipeCol_url ((unifyCols raw).getD j "")
              (colOf (keptRows raw) j) hN hU v ((mem_outCol raw hraw hj).mp hv))
        | false =>
          refine passTwo_other hN hU ?_
          rcases @pipeCol_other ((unifyCols raw).getD j "")
              (colOf (keptRows raw) j) hN hU with hclean | ⟨hstr, v0, hv0, hnull⟩
          · exact Or.inl (fun v hv => hclean v ((mem_outCol raw hraw hj).mp hv))
          · exact Or.inr ⟨fun v hv => hstr v ((mem_outCol raw hraw hj).mp hv),
              v0, (mem_outCol raw hraw hj).mpr hv0, hnull⟩
  rw [clean_data_eq _ hne', hcols', hkept, hpipe, dedupKeepFirst_eq_self hRnodup, hd]

/-- C4 (counterexample): on `[{"a": ""}]` the first normalization nullifies
the blank cell but keeps the row (the empty-row drop ran before text
cleaning), and the second normalization drops that now-fully-null row —
`normalize(normalize(x)) ≠ normalize(x)`. -/
theorem c4_counterexample :
    clean_data (dfToRecords (clean_data [[("a", Val.vstr "")]])) ≠
      clean_data [[("a", Val.vstr "")]] ∧
    clean_data [[("a", Val.vstr "")]] = DF.mk ["a"] [[Val.vnull]] ∧
    clean_data (dfToRecords (clean_data [[("a", Val.vstr "")]])) = DF.mk ["a"] [] :=
  ⟨by decide, by decide, by decide⟩

/-- C4 (witness): a concrete one-row input satisfying both guards, with
idempotence instantiated by the theorem. -/
theorem c4_witness :
    (clean_data [[("name", Val.vstr "A"), ("price", Val.vstr "$10")]]).rows ≠ [] ∧
    (∀ r ∈ (clean_data [[("name", Val.vstr "A"), ("price", Val.vstr "$10")]]).rows,
      allNullRow r = false) ∧
    clean_data (dfToRecords (clean_data [[("name", Val.vstr "A"), ("price", Val.vstr "$10")]])) =
      clean_data [[("name", Val.vstr "A"), ("price", Val.vstr "$10")]] :=
  ⟨by decide, by decide,
    c4_normalize_idempotent_conditional [[("name", Val.vstr "A"), ("price", Val.vstr "$10")]]
      (by decide) (by decide)⟩
